import Mathlib

/-
Verification of the pixelate core (src/src/main.rs): the dimension
reconciliation step of `process_image` (lines 168-189), `crop_image`
(lines 268-283), the block-sampling loops of `process_image`
(lines 191-234) and `average_pixels` (lines 285-306).

Machine integers are modelled as `Nat` with an explicit `% 2^w` where the
source performs wrapping arithmetic that could matter (`as u8` casts and
the `u32` channel accumulators).  A `DynamicImage` is modelled as a
width x height grid of RGBA pixels stored row-major, which is how the
`image` crate exposes `get_pixel`/`put_pixel`.
-/

/-- An RGBA pixel: four 8-bit channels, modelled as `Nat` with the
invariant `Valid` (each channel at most 255) carried separately. -/
structure Rgba where
  r : Nat
  g : Nat
  b : Nat
  a : Nat
deriving Repr, DecidableEq

/-- Each channel fits in a `u8`. -/
def Rgba.Valid (p : Rgba) : Prop :=
  p.r ≤ 255 ∧ p.g ≤ 255 ∧ p.b ≤ 255 ∧ p.a ≤ 255

instance (p : Rgba) : Decidable p.Valid := by
  unfold Rgba.Valid; infer_instance

/-- A pixel buffer: width, height and the row-major pixel data
(index `y * width + x`). -/
structure Img where
  width : Nat
  height : Nat
  data : List Rgba
deriving Repr, DecidableEq

/-- Every pixel of the buffer fits in 8 bits per channel (true of every
buffer decoded from an 8-bit image). -/
def Img.Valid (img : Img) : Prop :=
  ∀ p ∈ img.data, p.Valid

instance (img : Img) : Decidable img.Valid := by
  unfold Img.Valid; infer_instance

/-- `image.get_pixel(x, y)`: row-major lookup.  Out-of-range reads return
the zero pixel (the source never reads out of range on the paths
modelled here). -/
def getPixel (img : Img) (x y : Nat) : Rgba :=
  img.data.getD (y * img.width + x) ⟨0, 0, 0, 0⟩

/-- Build a `width x height` buffer whose pixel at `(x, y)` is `f x y`,
stored row-major.  This models an image every pixel of which the source
writes exactly once with `put_pixel`. -/
def mkImg (w h : Nat) (f : Nat → Nat → Rgba) : Img :=
  ⟨w, h, (List.range (w * h)).map (fun k => f (k % w) (k / w))⟩

/-- Writing an RGBA pixel into the `new_rgb8` output buffer
(main.rs lines 196-200) discards the alpha channel; reading it back
through `get_pixel` yields alpha 255. -/
def toRgb8 (p : Rgba) : Rgba :=
  ⟨p.r, p.g, p.b, 255⟩

/-- The error taxonomy of the reconcile step.  The source reports
`NotDivisible` (main.rs lines 168-184).  `ImageTooSmall` is the failure
the spec mandates for a crop that would produce a zero-sized image; the
source as written never produces it. -/
inductive DimensionError where
  | NotDivisible
  | ImageTooSmall
deriving Repr, DecidableEq

/-- `average_pixels` (main.rs lines 285-306): one channel's accumulator.
`red += pixel[0] as u32` wraps at 2^32, hence the explicit mod. -/
def sumChU32 (ch : Rgba → Nat) (pixels : List Rgba) : Nat :=
  pixels.foldl (fun acc p => (acc + ch p) % 4294967296) 0

/-- `average_pixels` (main.rs lines 285-306): sum each channel over the
list, divide by `pixels.len()`, and cast the quotient `as u8`
(truncation to the low 8 bits, hence `% 256`). -/
def average_pixels (pixels : List Rgba) : Rgba :=
  let red := sumChU32 Rgba.r pixels
  let green := sumChU32 Rgba.g pixels
  let blue := sumChU32 Rgba.b pixels
  let alpha := sumChU32 Rgba.a pixels
  let pixel_count := pixels.length
  ⟨red / pixel_count % 256, green / pixel_count % 256,
   blue / pixel_count % 256, alpha / pixel_count % 256⟩

/-- `crop_image` (main.rs lines 268-283), split out as the pure crop
rectangle: `((x_offset, y_offset), (new_width, new_height))`. -/
def crop_rect (width height s : Nat) (centre : Bool) : (Nat × Nat) × (Nat × Nat) :=
  let new_width := width - width % s
  let new_height := height - height % s
  let off := if centre then ((width - new_width) / 2, (height - new_height) / 2)
             else (0, 0)
  (off, (new_width, new_height))

/-- `crop_image` (main.rs lines 268-283): copy the crop rectangle out of
the source buffer. -/
def crop_image (img : Img) (s : Nat) (centre : Bool) : Img :=
  let r := crop_rect img.width img.height s centre
  mkImg r.2.1 r.2.2 (fun x y => getPixel img (r.1.1 + x) (r.1.2 + y))

/-- The dimension-reconcile step of `process_image` (main.rs lines
168-189): if a dimension is not divisible by the scale factor, fail with
`NotDivisible` unless `force_crop` is set, in which case crop. -/
def reconcile (img : Img) (s : Nat) (force_crop centre : Bool) :
    Except DimensionError Img :=
  if img.width % s ≠ 0 ∨ img.height % s ≠ 0 then
    if !force_crop then .error .NotDivisible
    else .ok (crop_image img s centre)
  else .ok img

/-- The `scale_factor x scale_factor` block of pixels gathered by the
inner loops of `process_image` (main.rs lines 204-216): index
`i * scale_factor + j` holds `get_pixel(x*s + i, y*s + j)`. -/
def blockPixels (img : Img) (s tx ty : Nat) : List Rgba :=
  (List.range s).flatMap
    (fun i => (List.range s).map (fun j => getPixel img (tx * s + i) (ty * s + j)))

/-- The pixelation loops of `process_image` (main.rs lines 191-234).
`keep_dimensions = true`: every pixel of a block is set to the block's
`average_pixels` value (lines 204-227); pixels outside the block grid
keep the zero initialisation of `new_rgb8`.  `keep_dimensions = false`
(Shrink): the output pixel at `(x, y)` is the source pixel at
`(x*s, y*s)` (lines 228-232).  Both branches write through an RBG
8-bit buffer, hence `toRgb8`. -/
def pixelate (img : Img) (s : Nat) (keep_dimensions : Bool) : Img :=
  let new_width := img.width / s
  let new_height := img.height / s
  if keep_dimensions then
    mkImg img.width img.height (fun px py =>
      if px / s < new_width ∧ py / s < new_height then
        toRgb8 (average_pixels (blockPixels img s (px / s) (py / s)))
      else toRgb8 ⟨0, 0, 0, 0⟩)
  else
    mkImg new_width new_height (fun x y => toRgb8 (getPixel img (x * s) (y * s)))

/-- The core pipeline of `process_image` after decode and before save:
reconcile, then pixelate. -/
def process_core (img : Img) (s : Nat) (keep_dimensions force_crop centre : Bool) :
    Except DimensionError Img :=
  match reconcile img s force_crop centre with
  | .error e => .error e
  | .ok img2 => .ok (pixelate img2 s keep_dimensions)

/-! Concrete buffers used as test inputs. -/

/-- A 2x2 buffer: top row two red pixels `(255,0,0,255)`, bottom row
`(1,0,0,255)` and `(0,0,0,255)`. -/
def imgRed2 : Img :=
  ⟨2, 2, [⟨255, 0, 0, 255⟩, ⟨255, 0, 0, 255⟩, ⟨1, 0, 0, 255⟩, ⟨0, 0, 0, 255⟩]⟩

/-- A 2x2 buffer uniformly filled with the half-transparent pixel
`(10,20,30,100)`. -/
def imgHalf2 : Img :=
  ⟨2, 2, List.replicate 4 ⟨10, 20, 30, 100⟩⟩

/-- A 2x2 buffer uniformly filled with the opaque pixel `(10,20,30,255)`. -/
def imgOpaque2 : Img :=
  ⟨2, 2, List.replicate 4 ⟨10, 20, 30, 255⟩⟩

/-- A 5x4 buffer of opaque black pixels. -/
def img54 : Img :=
  ⟨5, 4, List.replicate 20 ⟨0, 0, 0, 255⟩⟩

/-! Basic lemmas about the grid model. -/

theorem getPixel_mkImg (w h : Nat) (f : Nat → Nat → Rgba) (x y : Nat)
    (hx : x < w) (hy : y < h) : getPixel (mkImg w h f) x y = f x y := by
  have hw : 0 < w := by omega
  have hidx : y * w + x < w * h := by
    calc y * w + x < y * w + w := by omega
    _ = (y + 1) * w := ((Nat.succ_mul y w).symm)
    _ ≤ h * w := Nat.mul_le_mul (Nat.succ_le_of_lt hy) (Nat.le_refl w)
    _ = w * h := Nat.mul_comm h w
  unfold getPixel mkImg
  simp only
  rw [List.getD_eq_getElem?_getD, List.getElem?_eq_getElem (by simpa using hidx)]
  simp only [List.getElem_map, List.getElem_range, Option.getD_some]
  have hmod : (y * w + x) % w = x := by
    rw [Nat.mul_comm, Nat.mul_add_mod, Nat.mod_eq_of_lt hx]
  have hdiv : (y * w + x) / w = y := by
    rw [Nat.mul_comm, Nat.mul_add_div hw, Nat.div_eq_of_lt hx, Nat.add_zero]
  rw [hmod, hdiv]

theorem mkImg_width (w h : Nat) (f : Nat → Nat → Rgba) : (mkImg w h f).width = w := rfl

theorem mkImg_height (w h : Nat) (f : Nat → Nat → Rgba) : (mkImg w h f).height = h := rfl

theorem getPixel_valid (img : Img) (hv : img.Valid) (x y : Nat) :
    (getPixel img x y).Valid := by
  unfold getPixel
  rw [List.getD_eq_getElem?_getD]
  cases hq : img.data[y * img.width + x]? with
  | none => exact ⟨by simp, by simp, by simp, by simp⟩
  | some p => simpa using hv p (List.getElem?_mem hq)

/-! Lemmas about the wrapping channel accumulator of `average_pixels`. -/

theorem foldl_mod_eq_add_sum (ch : Rgba → Nat) (l : List Rgba) :
    ∀ acc : Nat, (∀ p ∈ l, ch p ≤ 255) → acc + (l.map ch).sum < 4294967296 →
      l.foldl (fun a p => (a + ch p) % 4294967296) acc = acc + (l.map ch).sum := by
  induction l with
  | nil => intro acc _ _; simp
  | cons q t ih =>
    intro acc hb hlt
    have hq : ch q ≤ 255 := hb q (List.mem_cons_self q t)
    have hsum : (List.map ch (q :: t)).sum = ch q + (t.map ch).sum := by simp
    have hlt' : acc + ch q + (t.map ch).sum < 4294967296 := by
      rw [hsum] at hlt; omega
    have hmod : (acc + ch q) % 4294967296 = acc + ch q := Nat.mod_eq_of_lt (by omega)
    calc (q :: t).foldl (fun a p => (a + ch p) % 4294967296) acc
        = t.foldl (fun a p => (a + ch p) % 4294967296) ((acc + ch q) % 4294967296) := rfl
    _ = t.foldl (fun a p => (a + ch p) % 4294967296) (acc + ch q) := by rw [hmod]
    _ = acc + ch q + (t.map ch).sum :=
        ih (acc + ch q) (fun p hp => hb p (List.mem_cons_of_mem q hp)) hlt'
    _ = acc + (List.map ch (q :: t)).sum := by rw [hsum]; omega

theorem mapSum_le (ch : Rgba → Nat) (l : List Rgba) (hb : ∀ p ∈ l, ch p ≤ 255) :
    (l.map ch).sum ≤ 255 * l.length := by
  induction l with
  | nil => simp
  | cons q t ih =>
    have hq : ch q ≤ 255 := hb q (List.mem_cons_self q t)
    have ht := ih (fun p hp => hb p (List.mem_cons_of_mem q hp))
    simp only [List.map_cons, List.sum_cons, List.length_cons]
    calc ch q + (t.map ch).sum ≤ 255 + 255 * t.length := by omega
    _ = 255 * (t.length + 1) := by ring

theorem sumChU32_eq_sum (ch : Rgba → Nat) (l : List Rgba)
    (hb : ∀ p ∈ l, ch p ≤ 255) (hlen : l.length ≤ 64) :
    sumChU32 ch l = (l.map ch).sum := by
  have hle := mapSum_le ch l hb
  have h := foldl_mod_eq_add_sum ch l 0 hb (by omega)
  simpa [sumChU32] using h

theorem mapSum_const (ch : Rgba → Nat) (l : List Rgba) (p : Rgba)
    (hc : ∀ q ∈ l, q = p) : (l.map ch).sum = l.length * ch p := by
  induction l with
  | nil => simp
  | cons q t ih =>
    have hq : q = p := hc q (List.mem_cons_self q t)
    have ht := ih (fun r hr => hc r (List.mem_cons_of_mem q hr))
    simp only [List.map_cons, List.sum_cons, List.length_cons, hq, ht]
    ring

/-- `average_pixels` on a list of at most 64 copies of a single valid
pixel returns that pixel exactly. -/
theorem average_pixels_const (l : List Rgba) (p : Rgba) (hc : ∀ q ∈ l, q = p)
    (hvp : p.Valid) (hpos : l.length ≠ 0) (hlen : l.length ≤ 64) :
    average_pixels l = p := by
  have hch : ∀ ch : Rgba → Nat, ch p ≤ 255 →
      sumChU32 ch l / l.length % 256 = ch p := by
    intro ch hchp
    have hb : ∀ q ∈ l, ch q ≤ 255 := fun q hq => by rw [hc q hq]; exact hchp
    rw [sumChU32_eq_sum ch l hb hlen, mapSum_const ch l p hc,
        Nat.mul_div_cancel_left _ (Nat.pos_of_ne_zero hpos),
        Nat.mod_eq_of_lt (by omega)]
  obtain ⟨h1, h2, h3, h4⟩ := hvp
  unfold average_pixels
  simp only
  rw [hch Rgba.r h1, hch Rgba.g h2, hch Rgba.b h3, hch Rgba.a h4]

theorem blockPixels_length (img : Img) (s tx ty : Nat) :
    (blockPixels img s tx ty).length = s * s := by
  unfold blockPixels
  rw [List.length_flatMap]
  have h : List.map
      (List.length ∘ fun i => List.map (fun j => getPixel img (tx * s + i) (ty * s + j)) (List.range s))
      (List.range s) = (List.range s).map (fun _ => s) := by
    apply List.map_congr_left
    intro i _
    simp
  rw [h, List.map_const', List.sum_replicate, List.length_range, smul_eq_mul]

theorem blockPixels_mem (img : Img) (s tx ty : Nat) (q : Rgba)
    (hq : q ∈ blockPixels img s tx ty) :
    ∃ i j, i < s ∧ j < s ∧ q = getPixel img (tx * s + i) (ty * s + j) := by
  unfold blockPixels at hq
  rw [List.mem_flatMap] at hq
  obtain ⟨i, hi, hmem⟩ := hq
  rw [List.mem_map] at hmem
  obtain ⟨j, hj, rfl⟩ := hmem
  exact ⟨i, j, List.mem_range.mp hi, List.mem_range.mp hj, rfl⟩

/-! Claim theorems. -/

/-- C1 counterexample: on the 2x2 buffer whose top-left 2x2 block is
(255,0,0,255),(255,0,0,255),(1,0,0,255),(0,0,0,255), Shrink mode at
scale factor 2 does NOT set the output pixel to the block's per-channel
mean: the code copies the block's top-left source pixel instead
(main.rs line 229), giving (255,0,0,255) rather than (127,0,0,255). -/
theorem shrink_not_mean_cex :
    getPixel (pixelate imgRed2 2 false) 0 0 ≠
      average_pixels (blockPixels imgRed2 2 0 0) := by decide

/-- C1 (amended): for every buffer with width and height divisible by the
scale factor, Shrink mode sets each output pixel (x, y) to the source
pixel at the top-left corner of its block, (x*s, y*s), with the alpha
channel replaced by 255 because the output buffer is 8-bit RGB; the
per-channel mean is computed only in KeepDimensions mode. -/
theorem shrink_samples_top_left (img : Img) (s x y : Nat)
    (hw : img.width % s = 0) (hh : img.height % s = 0)
    (hx : x < img.width / s) (hy : y < img.height / s) :
    getPixel (pixelate img s false) x y = toRgb8 (getPixel img (x * s) (y * s)) := by
  have h := getPixel_mkImg (img.width / s) (img.height / s)
      (fun a b => toRgb8 (getPixel img (a * s) (b * s))) x y hx hy
  simpa [pixelate] using h

/-- C1 witness: the amended claim evaluated on the concrete 2x2 buffer at
scale factor 2: the single Shrink output pixel equals the top-left
source pixel (255,0,0,255). -/
theorem shrink_samples_top_left_witness :
    getPixel (pixelate imgRed2 2 false) 0 0 = toRgb8 (getPixel imgRed2 0 0) :=
  shrink_samples_top_left imgRed2 2 0 0 (by decide) (by decide) (by decide) (by decide)

/-- C2: the code has no ImageTooSmall guard.  On a 2x2 buffer with scale
factor 4 and force_crop set, the reconcile step of `process_image`
succeeds, returning the crop, and the crop is a 0x0 buffer — it does not
fail, contradicting the spec's mandated `ImageTooSmall` failure. -/
theorem crop_zero_size_bug :
    reconcile imgOpaque2 4 true false = Except.ok (crop_image imgOpaque2 4 false) ∧
    (crop_image imgOpaque2 4 false).width = 0 ∧
    (crop_image imgOpaque2 4 false).height = 0 :=
  ⟨rfl, by decide, by decide⟩

/-- C3: `average_pixels` computes each output channel as the truncating
integer division of that channel's sum by the pixel count, for any block
of scale_factor^2 valid pixels with scale factor in [2,8] (the sums fit
in a u32 and the quotient fits in a u8, so the wrapping mods vanish). -/
theorem average_pixels_truncating (s : Nat) (pixels : List Rgba)
    (h2 : 2 ≤ s) (h8 : s ≤ 8) (hlen : pixels.length = s * s)
    (hv : ∀ p ∈ pixels, p.Valid) :
    average_pixels pixels =
      ⟨(pixels.map Rgba.r).sum / pixels.length,
       (pixels.map Rgba.g).sum / pixels.length,
       (pixels.map Rgba.b).sum / pixels.length,
       (pixels.map Rgba.a).sum / pixels.length⟩ := by
  have hle : pixels.length ≤ 64 := by nlinarith
  have hpos : 0 < pixels.length := by nlinarith
  have hch : ∀ ch : Rgba → Nat, (∀ p ∈ pixels, ch p ≤ 255) →
      sumChU32 ch pixels / pixels.length % 256 =
        (pixels.map ch).sum / pixels.length := by
    intro ch hb
    rw [sumChU32_eq_sum ch pixels hb hle]
    have hsle := mapSum_le ch pixels hb
    have : (pixels.map ch).sum / pixels.length ≤ 255 := by
      calc (pixels.map ch).sum / pixels.length
          ≤ 255 * pixels.length / pixels.length := Nat.div_le_div_right hsle
      _ = 255 := Nat.mul_div_cancel 255 hpos
    exact Nat.mod_eq_of_lt (by omega)
  unfold average_pixels
  simp only
  rw [hch Rgba.r (fun p hp => (hv p hp).1), hch Rgba.g (fun p hp => (hv p hp).2.1),
      hch Rgba.b (fun p hp => (hv p hp).2.2.1), hch Rgba.a (fun p hp => (hv p hp).2.2.2)]

/-- C3 witness: the spec's example block at scale factor 2:
(255,0,0,255),(255,0,0,255),(1,0,0,255),(0,0,0,255) averages to
(floor(511/4)=127, 0, 0, 255). -/
theorem average_pixels_truncating_witness :
    average_pixels [⟨255, 0, 0, 255⟩, ⟨255, 0, 0, 255⟩, ⟨1, 0, 0, 255⟩, ⟨0, 0, 0, 255⟩] =
      ⟨127, 0, 0, 255⟩ := by
  have h := average_pixels_truncating 2
    [⟨255, 0, 0, 255⟩, ⟨255, 0, 0, 255⟩, ⟨1, 0, 0, 255⟩, ⟨0, 0, 0, 255⟩]
    (by decide) (by decide) (by decide) (by decide)
  rw [h]; decide

/-- C4: when a dimension is not divisible by the scale factor and
cropping is not allowed, the reconcile step fails with NotDivisible and
the pipeline produces no output buffer (the pixelate step is never
reached). -/
theorem not_divisible_fails (img : Img) (s : Nat) (kd centre : Bool)
    (hnd : img.width % s ≠ 0 ∨ img.height % s ≠ 0) :
    process_core img s kd false centre = Except.error DimensionError.NotDivisible := by
  unfold process_core reconcile
  rw [if_pos hnd]
  rfl

/-- C4 witness: scale factor 2 on a 5x4 buffer with cropping disallowed
fails with NotDivisible. -/
theorem not_divisible_fails_witness :
    process_core img54 2 false false false = Except.error DimensionError.NotDivisible :=
  not_divisible_fails img54 2 false false (by decide)

/-- C7: when both dimensions are divisible by the scale factor the
reconcile step returns the buffer unchanged, regardless of the
force_crop and centre flags. -/
theorem reconcile_identity (img : Img) (s : Nat) (fc c : Bool)
    (hw : img.width % s = 0) (hh : img.height % s = 0) :
    reconcile img s fc c = Except.ok img := by
  unfold reconcile
  rw [if_neg]
  push_neg
  exact ⟨hw, hh⟩

/-- C7 witness: a 2x2 buffer at scale factor 2 passes reconcile
unchanged with both flags set. -/
theorem reconcile_identity_witness :
    reconcile imgOpaque2 2 true true = Except.ok imgOpaque2 :=
  reconcile_identity imgOpaque2 2 true true (by decide) (by decide)

/-- C6: on a buffer with dimensions divisible by the scale factor,
Shrink mode outputs a (w/s) x (h/s) buffer and KeepDimensions mode
outputs a w x h buffer. -/
theorem pixelate_dims (img : Img) (s : Nat)
    (hw : img.width % s = 0) (hh : img.height % s = 0) :
    ((pixelate img s false).width = img.width / s ∧
     (pixelate img s false).height = img.height / s) ∧
    ((pixelate img s true).width = img.width ∧
     (pixelate img s true).height = img.height) :=
  ⟨⟨rfl, rfl⟩, ⟨rfl, rfl⟩⟩

/-- C6 witness: dimensions of both modes on the concrete 2x2 buffer at
scale factor 2. -/
theorem pixelate_dims_witness :
    ((pixelate imgOpaque2 2 false).width = imgOpaque2.width / 2 ∧
     (pixelate imgOpaque2 2 false).height = imgOpaque2.height / 2) ∧
    ((pixelate imgOpaque2 2 true).width = imgOpaque2.width ∧
     (pixelate imgOpaque2 2 true).height = imgOpaque2.height) :=
  pixelate_dims imgOpaque2 2 (by decide) (by decide)

/-- The largest multiple of `s` not exceeding `w`, as computed by
`crop_image`: `w - w % s = s * (w / s)`. -/
theorem sub_mod_eq_mul_div (w s : Nat) : w - w % s = s * (w / s) := by
  have h := Nat.mod_add_div w s
  omega

/-- The computed dimension is the largest multiple of `s` not exceeding
the original. -/
theorem sub_mod_largest_multiple (w s : Nat) (hs : 0 < s) :
    s ∣ (w - w % s) ∧ (w - w % s) ≤ w ∧
      ∀ m, s ∣ m → m ≤ w → m ≤ w - w % s := by
  refine ⟨?_, Nat.sub_le w _, ?_⟩
  · rw [sub_mod_eq_mul_div]
    exact Dvd.intro (w / s) rfl
  · intro m hm hmw
    obtain ⟨k, rfl⟩ := hm
    rw [sub_mod_eq_mul_div]
    have hk : k ≤ w / s := (Nat.le_div_iff_mul_le hs).mpr (by rw [Nat.mul_comm]; exact hmw)
    exact Nat.mul_le_mul_left s hk

/-- C5: for every buffer with a non-divisible dimension and scale factor
in [2,8], `crop_image` produces the crop rectangle of `crop_rect`: the
new dimensions are the largest multiples of the scale factor not
exceeding the originals, the offset is (0,0) without centring and
((w-w')/2, (h-h')/2) with centring, and the rectangle always lies within
the original buffer. -/
theorem crop_rect_spec (img : Img) (s : Nat) (centre : Bool)
    (h2 : 2 ≤ s) (h8 : s ≤ 8)
    (hnd : img.width % s ≠ 0 ∨ img.height % s ≠ 0) :
    ((crop_image img s centre).width = (crop_rect img.width img.height s centre).2.1 ∧
     (crop_image img s centre).height = (crop_rect img.width img.height s centre).2.2) ∧
    (s ∣ (crop_rect img.width img.height s centre).2.1 ∧
     (crop_rect img.width img.height s centre).2.1 ≤ img.width ∧
     ∀ m, s ∣ m → m ≤ img.width → m ≤ (crop_rect img.width img.height s centre).2.1) ∧
    (s ∣ (crop_rect img.width img.height s centre).2.2 ∧
     (crop_rect img.width img.height s centre).2.2 ≤ img.height ∧
     ∀ m, s ∣ m → m ≤ img.height → m ≤ (crop_rect img.width img.height s centre).2.2) ∧
    (centre = false → (crop_rect img.width img.height s centre).1 = (0, 0)) ∧
    (centre = true → (crop_rect img.width img.height s centre).1 =
      ((img.width - (crop_rect img.width img.height s centre).2.1) / 2,
       (img.height - (crop_rect img.width img.height s centre).2.2) / 2)) ∧
    ((crop_rect img.width img.height s centre).1.1 +
       (crop_rect img.width img.height s centre).2.1 ≤ img.width ∧
     (crop_rect img.width img.height s centre).1.2 +
       (crop_rect img.width img.height s centre).2.2 ≤ img.height) := by
  have hs : 0 < s := by omega
  have hwmul := sub_mod_largest_multiple img.width s hs
  have hhmul := sub_mod_largest_multiple img.height s hs
  have hwm : img.width % s ≤ img.width := Nat.mod_le _ _
  have hhm : img.height % s ≤ img.height := Nat.mod_le _ _
  refine ⟨⟨rfl, rfl⟩, ?_, ?_, ?_, ?_, ?_⟩
  · simpa [crop_rect] using hwmul
  · simpa [crop_rect] using hhmul
  · intro hc; subst hc; rfl
  · intro hc; subst hc; rfl
  · cases centre with
    | false => simp [crop_rect]
    | true =>
      constructor
      · show (img.width - (img.width - img.width % s)) / 2 +
            (img.width - img.width % s) ≤ img.width
        omega
      · show (img.height - (img.height - img.height % s)) / 2 +
            (img.height - img.height % s) ≤ img.height
        omega

/-- C5 witness: a 5x4 buffer at scale factor 2 with centring: crop
rectangle ((0,0),(4,4)), which is divisible, centred and in bounds. -/
theorem crop_rect_spec_witness :
    ((crop_image img54 2 true).width = (crop_rect img54.width img54.height 2 true).2.1 ∧
     (crop_image img54 2 true).height = (crop_rect img54.width img54.height 2 true).2.2) ∧
    (2 ∣ (crop_rect img54.width img54.height 2 true).2.1 ∧
     (crop_rect img54.width img54.height 2 true).2.1 ≤ img54.width) ∧
    ((crop_rect img54.width img54.height 2 true).1 =
      ((img54.width - (crop_rect img54.width img54.height 2 true).2.1) / 2,
       (img54.height - (crop_rect img54.width img54.height 2 true).2.2) / 2)) ∧
    ((crop_rect img54.width img54.height 2 true).1.1 +
       (crop_rect img54.width img54.height 2 true).2.1 ≤ img54.width ∧
     (crop_rect img54.width img54.height 2 true).1.2 +
       (crop_rect img54.width img54.height 2 true).2.2 ≤ img54.height) := by
  have h := crop_rect_spec img54 2 true (by decide) (by decide) (by decide)
  obtain ⟨hdims, hw, hh, hoff0, hoffc, hbounds⟩ := h
  exact ⟨hdims, ⟨hw.1, hw.2.1⟩, hoffc rfl, hbounds⟩

/-- Every pixel of a buffer built by `mkImg` from a pixel function whose
alpha channel is always 255 reads back alpha 255. -/
theorem getPixel_mkImg_alpha (w h : Nat) (f : Nat → Nat → Rgba) (x y : Nat)
    (hx : x < w) (hy : y < h) (hf : ∀ a b, (f a b).a = 255) :
    (getPixel (mkImg w h f) x y).a = 255 := by
  rw [getPixel_mkImg w h f x y hx hy]
  exact hf x y

/-- C9: in both output modes, every pixel of the output buffer has alpha
255 regardless of the input's alpha values: the output is allocated as
8-bit RGB (main.rs lines 196-200), so the alpha written by `put_pixel`
is discarded and reads back as 255. -/
theorem output_alpha_opaque (img : Img) (s : Nat) (kd : Bool) (x y : Nat)
    (hx : x < (pixelate img s kd).width) (hy : y < (pixelate img s kd).height) :
    (getPixel (pixelate img s kd) x y).a = 255 := by
  cases kd with
  | false =>
    exact getPixel_mkImg_alpha (img.width / s) (img.height / s)
      (fun a b => toRgb8 (getPixel img (a * s) (b * s))) x y hx hy
      (fun a b => rfl)
  | true =>
    exact getPixel_mkImg_alpha img.width img.height
      (fun px py => if px / s < img.width / s ∧ py / s < img.height / s then
          toRgb8 (average_pixels (blockPixels img s (px / s) (py / s)))
        else toRgb8 ⟨0, 0, 0, 0⟩) x y hx hy
      (fun a b => by dsimp only; split <;> rfl)

/-- C9 witness: the pixel of the KeepDimensions output of the uniform
alpha-100 buffer has alpha 255. -/
theorem output_alpha_opaque_witness :
    (getPixel (pixelate imgHalf2 2 true) 0 0).a = 255 :=
  output_alpha_opaque imgHalf2 2 true 0 0 (by decide) (by decide)

/-- C10: all arithmetic in the block-sampling path is safe for scale
factors in [2,8]: `scale_factor * scale_factor` stays below 64 (no u8
overflow), the block always holds exactly scale_factor^2 >= 4 pixels (so
`average_pixels` never divides by zero), and each per-channel u32
accumulator never wraps: it equals the exact sum, which is at most
64 * 255. -/
theorem block_arith_safe (img : Img) (s tx ty : Nat)
    (h2 : 2 ≤ s) (h8 : s ≤ 8) (hv : img.Valid) :
    (s * s ≤ 64 ∧ s * s < 256) ∧
    (blockPixels img s tx ty).length = s * s ∧
    (blockPixels img s tx ty).length ≠ 0 ∧
    ∀ ch : Rgba → Nat, (∀ p : Rgba, p.Valid → ch p ≤ 255) →
      sumChU32 ch (blockPixels img s tx ty) = ((blockPixels img s tx ty).map ch).sum ∧
      ((blockPixels img s tx ty).map ch).sum ≤ 64 * 255 := by
  have hss : s * s ≤ 64 := by nlinarith
  have hlen := blockPixels_length img s tx ty
  refine ⟨⟨hss, by omega⟩, hlen, by nlinarith, ?_⟩
  intro ch hch
  have hb : ∀ p ∈ blockPixels img s tx ty, ch p ≤ 255 := by
    intro p hp
    obtain ⟨i, j, _, _, rfl⟩ := blockPixels_mem img s tx ty p hp
    exact hch _ (getPixel_valid img hv _ _)
  have hsum := mapSum_le ch _ hb
  refine ⟨sumChU32_eq_sum ch _ hb (by omega), ?_⟩
  calc ((blockPixels img s tx ty).map ch).sum
      ≤ 255 * (blockPixels img s tx ty).length := hsum
  _ = 255 * (s * s) := by rw [hlen]
  _ ≤ 255 * 64 := by nlinarith
  _ = 64 * 255 := by ring

/-- C10 witness: the safety facts evaluated on the concrete 2x2 buffer
at scale factor 2, with the red channel as the sampled accumulator. -/
theorem block_arith_safe_witness :
    (2 * 2 ≤ 64 ∧ 2 * 2 < 256) ∧
    (blockPixels imgOpaque2 2 0 0).length = 2 * 2 ∧
    (blockPixels imgOpaque2 2 0 0).length ≠ 0 ∧
    (sumChU32 Rgba.r (blockPixels imgOpaque2 2 0 0) =
      ((blockPixels imgOpaque2 2 0 0).map Rgba.r).sum ∧
     ((blockPixels imgOpaque2 2 0 0).map Rgba.r).sum ≤ 64 * 255) := by
  have h := block_arith_safe imgOpaque2 2 0 0 (by decide) (by decide) (by decide)
  exact ⟨h.1, h.2.1, h.2.2.1, h.2.2.2 Rgba.r (fun p hp => hp.1)⟩

/-- Two buffers with the same dimensions, data of the expected row-major
length and equal pixels everywhere are equal. -/
theorem Img.eq_of_getPixel (A B : Img) (hw : A.width = B.width) (hh : A.height = B.height)
    (hA : A.data.length = A.width * A.height) (hB : B.data.length = B.width * B.height)
    (hp : ∀ x, x < A.width → ∀ y, y < A.height → getPixel A x y = getPixel B x y) :
    A = B := by
  have hdata : A.data = B.data := by
    apply List.ext_getElem (by rw [hA, hB, hw, hh])
    intro k h1 h2
    have hwpos : 0 < A.width := by
      by_contra h0
      have hz : A.width = 0 := by omega
      rw [hA, hz] at h1
      simp at h1
    have hpx : k % A.width < A.width := Nat.mod_lt _ hwpos
    have h1' := h1
    rw [hA, Nat.mul_comm] at h1'
    have hpy : k / A.width < A.height := (Nat.div_lt_iff_lt_mul hwpos).mpr h1'
    have hk : k / A.width * A.width + k % A.width = k := by
      have h := Nat.div_add_mod k A.width
      calc k / A.width * A.width + k % A.width
          = A.width * (k / A.width) + k % A.width := by rw [Nat.mul_comm]
      _ = k := h
    have e1 : getPixel A (k % A.width) (k / A.width) = A.data.get ⟨k, h1⟩ := by
      unfold getPixel
      rw [hk, List.getD_eq_getElem?_getD, List.getElem?_eq_getElem h1, Option.getD_some]
      simp
    have e2 : getPixel B (k % A.width) (k / A.width) = B.data.get ⟨k, h2⟩ := by
      unfold getPixel
      rw [← hw, hk, List.getD_eq_getElem?_getD, List.getElem?_eq_getElem h2, Option.getD_some]
      simp
    have := hp _ hpx _ hpy
    rw [e1, e2] at this
    simpa using this
  calc A = ⟨A.width, A.height, A.data⟩ := rfl
  _ = ⟨B.width, B.height, B.data⟩ := by rw [hw, hh, hdata]
  _ = B := rfl

theorem pixelate_data_length (img : Img) (s : Nat) (kd : Bool) :
    (pixelate img s kd).data.length =
      (pixelate img s kd).width * (pixelate img s kd).height := by
  cases kd <;> simp [pixelate, mkImg]

/-- The KeepDimensions output pixel at (px, py) is the averaged value of
the containing block, for buffers with divisible dimensions. -/
theorem getPixel_pixelate_keep (img : Img) (s px py : Nat)
    (hs : 0 < s) (hw : img.width % s = 0) (hh : img.height % s = 0)
    (hpx : px < img.width) (hpy : py < img.height) :
    getPixel (pixelate img s true) px py =
      toRgb8 (average_pixels (blockPixels img s (px / s) (py / s))) := by
  have hdvw : s ∣ img.width := Nat.dvd_of_mod_eq_zero hw
  have hdvh : s ∣ img.height := Nat.dvd_of_mod_eq_zero hh
  have hx' : px / s < img.width / s :=
    (Nat.div_lt_iff_lt_mul hs).mpr (by rw [Nat.div_mul_cancel hdvw]; exact hpx)
  have hy' : py / s < img.height / s :=
    (Nat.div_lt_iff_lt_mul hs).mpr (by rw [Nat.div_mul_cancel hdvh]; exact hpy)
  have h := getPixel_mkImg img.width img.height
    (fun a b => if a / s < img.width / s ∧ b / s < img.height / s then
        toRgb8 (average_pixels (blockPixels img s (a / s) (b / s)))
      else toRgb8 ⟨0, 0, 0, 0⟩) px py hpx hpy
  rw [show pixelate img s true = mkImg img.width img.height
    (fun a b => if a / s < img.width / s ∧ b / s < img.height / s then
        toRgb8 (average_pixels (blockPixels img s (a / s) (b / s)))
      else toRgb8 ⟨0, 0, 0, 0⟩) from rfl, h]
  exact if_pos ⟨hx', hy'⟩

/-- C8 counterexample: the 2x2 buffer uniformly filled with the
half-transparent pixel (10,20,30,100) is block-uniform for scale factor
2, yet pixelating it in KeepDimensions mode is NOT the identity: the
output buffer is RGB, so every output pixel reads back (10,20,30,255). -/
theorem keep_roundtrip_cex : pixelate imgHalf2 2 true ≠ imgHalf2 := by decide

/-- C8 (amended): for every block-uniform buffer with dimensions
divisible by the scale factor s in [2,8] whose pixels all have alpha 255
(as any buffer decoded from the pixelator's own RGB output does),
pixelating again with the same scale factor in KeepDimensions mode is a
fixed point: the output is byte-identical to the input.  For pixels with
alpha below 255 the fixed point fails, because the RGB output buffer
discards alpha and reads back 255. -/
theorem keep_fixed_point (img : Img) (s : Nat)
    (h2 : 2 ≤ s) (h8 : s ≤ 8)
    (hw : img.width % s = 0) (hh : img.height % s = 0)
    (hlen : img.data.length = img.width * img.height)
    (hval : img.Valid)
    (hub : ∀ x, x < img.width → ∀ y, y < img.height →
      getPixel img x y = getPixel img (s * (x / s)) (s * (y / s)))
    (ha : ∀ x, x < img.width → ∀ y, y < img.height → (getPixel img x y).a = 255) :
    pixelate img s true = img := by
  have hs : 0 < s := by omega
  have hdvw : s ∣ img.width := Nat.dvd_of_mod_eq_zero hw
  have hdvh : s ∣ img.height := Nat.dvd_of_mod_eq_zero hh
  have hpix : ∀ px, px < img.width → ∀ py, py < img.height →
      getPixel (pixelate img s true) px py = getPixel img px py := by
    intro px hpx py hpy
    rw [getPixel_pixelate_keep img s px py hs hw hh hpx hpy]
    have hsbx : s * (px / s) ≤ px := by
      rw [Nat.mul_comm]; exact Nat.div_mul_le_self px s
    have hsby : s * (py / s) ≤ py := by
      rw [Nat.mul_comm]; exact Nat.div_mul_le_self py s
    have hblock : ∀ q ∈ blockPixels img s (px / s) (py / s),
        q = getPixel img (s * (px / s)) (s * (py / s)) := by
      intro q hq
      obtain ⟨i, j, hi, hj, rfl⟩ := blockPixels_mem img s (px / s) (py / s) q hq
      have hbxs : px / s < img.width / s :=
        (Nat.div_lt_iff_lt_mul hs).mpr (by rw [Nat.div_mul_cancel hdvw]; exact hpx)
      have hbys : py / s < img.height / s :=
        (Nat.div_lt_iff_lt_mul hs).mpr (by rw [Nat.div_mul_cancel hdvh]; exact hpy)
      have hcx : px / s * s + i < img.width := by
        have hle : (px / s + 1) * s ≤ img.width / s * s :=
          Nat.mul_le_mul (Nat.succ_le_of_lt hbxs) (Nat.le_refl s)
        rw [Nat.div_mul_cancel hdvw] at hle
        have hsm : (px / s + 1) * s = px / s * s + s := by ring
        omega
      have hcy : py / s * s + j < img.height := by
        have hle : (py / s + 1) * s ≤ img.height / s * s :=
          Nat.mul_le_mul (Nat.succ_le_of_lt hbys) (Nat.le_refl s)
        rw [Nat.div_mul_cancel hdvh] at hle
        have hsm : (py / s + 1) * s = py / s * s + s := by ring
        omega
      have h := hub (px / s * s + i) hcx (py / s * s + j) hcy
      have hdx : (px / s * s + i) / s = px / s := by
        rw [Nat.add_comm, Nat.add_mul_div_right i (px / s) hs,
            Nat.div_eq_of_lt hi, Nat.zero_add]
      have hdy : (py / s * s + j) / s = py / s := by
        rw [Nat.add_comm, Nat.add_mul_div_right j (py / s) hs,
            Nat.div_eq_of_lt hj, Nat.zero_add]
      rw [hdx, hdy] at h
      exact h
    have hp0v : (getPixel img (s * (px / s)) (s * (py / s))).Valid :=
      getPixel_valid img hval _ _
    have hp0a : (getPixel img (s * (px / s)) (s * (py / s))).a = 255 :=
      ha _ (by omega) _ (by omega)
    have havg : average_pixels (blockPixels img s (px / s) (py / s)) =
        getPixel img (s * (px / s)) (s * (py / s)) := by
      apply average_pixels_const _ _ hblock hp0v
      · rw [blockPixels_length]
        exact (Nat.mul_pos hs hs).ne'
      · rw [blockPixels_length]
        nlinarith
    rw [havg]
    have hrgb : toRgb8 (getPixel img (s * (px / s)) (s * (py / s))) =
        getPixel img (s * (px / s)) (s * (py / s)) := by
      unfold toRgb8
      rw [← hp0a]
    rw [hrgb]
    exact (hub px hpx py hpy).symm
  exact Img.eq_of_getPixel (pixelate img s true) img rfl rfl
    (pixelate_data_length img s true) hlen hpix

/-- C8 witness: the 2x2 buffer uniformly filled with the opaque pixel
(10,20,30,255) is a fixed point of KeepDimensions pixelation at scale
factor 2. -/
theorem keep_fixed_point_witness : pixelate imgOpaque2 2 true = imgOpaque2 :=
  keep_fixed_point imgOpaque2 2 (by decide) (by decide) (by decide) (by decide)
    (by decide) (by decide) (by decide) (by decide)
